import Mathlib

/-!
Verification of the s3gui frontend sync/upload logic.

The TypeScript source is shallowly embedded: strings are `String` or
`List Char`, JS arrays are `List`, the mutable module-level state
(`errors`, `tasks`, `searchTimeout`) is threaded explicitly, and the
async task pool `runWithConcurrency` is modelled both as a small-step
transition relation (for the in-flight invariant) and as a fuel-indexed
executor driven by a completion-order oracle (for dispatch uniqueness
and termination).
-/

namespace S3Gui

/-! ### Error log (`showError` / `clearErrors`)

Source: `showError` pushes the message at the front of the module-level
`errors` array (`errors.unshift(message)`) and drops the last entry when
the length exceeds 50 (`if (errors.length > 50) errors.pop()`);
`clearErrors` resets the array to empty. -/

def showError (message : String) (errors : List String) : List String :=
  let errors' := message :: errors
  if errors'.length > 50 then errors'.dropLast else errors'

def clearErrors (_ : List String) : List String := []

inductive ErrOp where
  | push (message : String)
  | clear
deriving DecidableEq

def applyErrOp (errors : List String) : ErrOp → List String
  | ErrOp.push m => showError m errors
  | ErrOp.clear => clearErrors errors

def runErrOps (ops : List ErrOp) : List String :=
  ops.foldl applyErrOp []

/-! ### HTML escaping (`escapeHtml`)

Source: `str.replace(/&/g, "&amp;").replace(/</g, "&lt;")
.replace(/>/g, "&gt;").replace(/"/g, "&quot;")`. A JS string is
modelled as a `List Char`; a global single-character regex replace is
`replaceChar`. -/

def replaceChar (c : Char) (rep : List Char) : List Char → List Char
  | [] => []
  | d :: rest => (if d = c then rep else [d]) ++ replaceChar c rep rest

def escapeHtml (s : List Char) : List Char :=
  replaceChar '"' ['&', 'q', 'u', 'o', 't', ';']
    (replaceChar '>' ['&', 'g', 't', ';']
      (replaceChar '<' ['&', 'l', 't', ';']
        (replaceChar '&' ['&', 'a', 'm', 'p', ';'] s)))

/-- The tails that may legally follow a `&` in escaped output:
`amp;`, `lt;`, `gt;`, `quot;`. -/
def entityTails : List (List Char) :=
  [['a', 'm', 'p', ';'], ['l', 't', ';'], ['g', 't', ';'], ['q', 'u', 'o', 't', ';']]

/-- A character list is well escaped when it contains no raw `<`, `>`
or `"` and every `&` starts one of the four entities. -/
inductive WellEscaped : List Char → Prop where
  | nil : WellEscaped []
  | amp (tail rest : List Char) : tail ∈ entityTails → WellEscaped rest →
      WellEscaped ('&' :: (tail ++ rest))
  | other (c : Char) (rest : List Char) : c ≠ '&' → c ≠ '<' → c ≠ '>' → c ≠ '"' →
      WellEscaped rest → WellEscaped (c :: rest)

/-! ### Search debounce (`handleSearchInput`)

Source: on each input event the pending timeout, if any, is cleared
(`clearTimeout(searchTimeout)`) and a fresh 300 ms timeout is armed
whose callback performs the reload (`loadObjects()`). A timeout whose
deadline has already passed has fired (the reload ran) before the next
event arrives, so clearing it then is a no-op. State: the pending
deadline and the number of reload runs so far. -/

def searchDebounceMs : Nat := 300

structure DebounceState where
  timer : Option Nat
  runs : Nat
deriving DecidableEq

def debounceInput (st : DebounceState) (t : Nat) : DebounceState :=
  let fired :=
    match st.timer with
    | some deadline => if deadline ≤ t then 1 else 0
    | none => 0
  { timer := some (t + searchDebounceMs), runs := st.runs + fired }

def debounceProcess (events : List Nat) : DebounceState :=
  events.foldl debounceInput ⟨none, 0⟩

/-- Total reload runs caused by a finite burst: runs fired during the
burst plus the one pending timer that fires after the burst ends. -/
def debounceTotalRuns (events : List Nat) : Nat :=
  let st := debounceProcess events
  st.runs + (match st.timer with | some _ => 1 | none => 0)

/-! ### One-shot sync call (`syncWithLocal` / `api.syncFolder`)

Source: `syncWithLocal` returns early unless a profile and bucket are
selected and a folder was picked; otherwise it calls
`api.syncFolder(currentProfileId, currentBucket, currentPrefix, folder,
"local_to_remote")`. The record collects the arguments of that call
(`pfx` stands for the source's `prefix` argument). -/

structure SyncCall where
  profileId : String
  bucket : String
  pfx : String
  localPath : String
  direction : String
deriving DecidableEq

def syncWithLocal (currentProfileId currentBucket : Option String)
    (currentPfx : String) (folder : Option String) : Option SyncCall :=
  match currentProfileId, currentBucket with
  | some pid, some b =>
    match folder with
    | some f =>
      some { profileId := pid, bucket := b, pfx := currentPfx,
             localPath := f, direction := "local_to_remote" }
    | none => none
  | _, _ => none

/-! ### Event payload shapes (`types.ts`)

Source: `SyncCompletedPayload { sync_id, files_uploaded,
files_downloaded }` and `SyncResult { uploaded, downloaded, deleted,
skipped }`. The field-name lists reflect exactly the declared fields. -/

structure SyncCompletedPayload where
  sync_id : String
  files_uploaded : Nat
  files_downloaded : Nat
deriving DecidableEq

def syncCompletedPayloadFields : List String :=
  ["sync_id", "files_uploaded", "files_downloaded"]

structure SyncResult where
  uploaded : Nat
  downloaded : Nat
  deleted : Nat
  skipped : Nat
deriving DecidableEq

def syncResultFields : List String :=
  ["uploaded", "downloaded", "deleted", "skipped"]

/-! ### Bounded-concurrency task pool (`runWithConcurrency`)

Source:
```
const queue = [...items];
const running: Promise<void>[] = [];
while (queue.length > 0 || running.length > 0) {
  while (running.length < concurrency && queue.length > 0) {
    const item = queue.shift()!;
    const promise = fn(item).finally(() => { ...splice out promise... });
    running.push(promise);
  }
  if (running.length > 0) await Promise.race(running);
}
```
Two views of the same loop. First, a small-step relation on
`(queue, running)` whose steps are the two atomic state changes: one
iteration of the inner dispatch `while` (guarded by
`running.length < concurrency`), and the settlement of one in-flight
promise (its `finally` splices it out of `running`); a promise is
identified by its item. Second, an executable fuel-indexed run in which
`fillQueue` is the whole inner `while` and the oracle `choices` picks
which in-flight promise `Promise.race` settles each round. -/

def MAX_CONCURRENT_UPLOADS : Nat := 20

inductive PoolStep (concurrency : Nat) :
    List α × List α → List α × List α → Prop where
  | dispatch (x : α) (queue running : List α) :
      running.length < concurrency →
      PoolStep concurrency (x :: queue, running) (queue, running ++ [x])
  | complete (queue running : List α) (i : Nat) (h : i < running.length) :
      PoolStep concurrency (queue, running) (queue, running.eraseIdx i)

/-- All states the pool loop can pass through from a start state. -/
def PoolReach (concurrency : Nat) (s t : List α × List α) : Prop :=
  Relation.ReflTransGen (PoolStep concurrency) s t

/-- One full run of the inner dispatch `while` loop: moves items from
the front of the queue to the back of `running` while
`running.length < concurrency`. Returns the remaining queue, the new
running list, and the items dispatched in dispatch order. -/
def fillQueue (concurrency : Nat) : List α → List α → List α × List α × List α
  | [], running => ([], running, [])
  | x :: queue, running =>
    if running.length < concurrency then
      let rec' := fillQueue concurrency queue (running ++ [x])
      (rec'.1, rec'.2.1, x :: rec'.2.2)
    else (x :: queue, running, [])

/-- Fuel-indexed run of the outer loop. `choices` is the oracle giving,
for each round, which in-flight promise `Promise.race` settles first.
Returns the dispatch trace on termination; `none` when fuel runs out or
the loop spins without any in-flight promise (possible only when
`concurrency = 0` and the queue is nonempty — the source then loops
forever). -/
def runPool (concurrency : Nat) :
    Nat → List Nat → List α → List α → Option (List α)
  | fuel, choices, queue, running =>
    if queue.isEmpty && running.isEmpty then some []
    else
      match fuel with
      | 0 => none
      | fuel' + 1 =>
        if (fillQueue concurrency queue running).2.1.length = 0 then none
        else
          (runPool concurrency fuel' choices.tail
              (fillQueue concurrency queue running).1
              ((fillQueue concurrency queue running).2.1.eraseIdx
                (choices.headD 0 % (fillQueue concurrency queue running).2.1.length))).map
            (fun rest => (fillQueue concurrency queue running).2.2 ++ rest)

/-! ### Task store (`Task`, `addTasksBatch`, `updateTaskStatus`)

Source: `generateTaskId` returns `` `task-${++taskIdCounter}` `` — a
pre-incremented counter, modelled as the `Nat` after the increment.
`addTasksBatch` creates one pending task per file name with fresh ids
and unshifts them into the global list. `updateTaskStatus` finds the
first task with the given id, sets its status, and sets its error only
when `error` is truthy (so `undefined` and the empty string leave the
field alone). -/

inductive TaskType where
  | upload
  | delete
  | sync
  | keepsync
deriving DecidableEq

inductive TaskStatus where
  | pending
  | running
  | completed
  | failed
deriving DecidableEq

structure Task where
  id : Nat
  type : TaskType
  fileName : String
  status : TaskStatus
  error : Option String
deriving DecidableEq

def addTasksBatch (counter : Nat) (ty : TaskType) : List String → List Task
  | [] => []
  | name :: rest =>
    { id := counter + 1, type := ty, fileName := name,
      status := TaskStatus.pending, error := none }
      :: addTasksBatch (counter + 1) ty rest

def updateTaskStatus (tasks : List Task) (taskId : Nat) (status : TaskStatus)
    (error : Option String) : List Task :=
  match tasks with
  | [] => []
  | t :: rest =>
    if t.id = taskId then
      { t with
        status := status,
        error :=
          match error with
          | some e => if e ≠ "" then some e else t.error
          | none => t.error } :: rest
    else t :: updateTaskStatus rest taskId status error

/-- `tasks.find(t => t.id === taskId)` — the first task with that id. -/
def findTask (tasks : List Task) (taskId : Nat) : Option Task :=
  match tasks with
  | [] => none
  | t :: rest => if t.id = taskId then some t else findTask rest taskId

/-- The change `updateTaskStatus` makes to the task it finds. -/
def applyStatus (t : Task) (status : TaskStatus) (error : Option String) : Task :=
  { t with
    status := status,
    error :=
      match error with
      | some e => if e ≠ "" then some e else t.error
      | none => t.error }

/-- Net effect of one upload worker on its own task: set running, then
completed on success or failed with the stringified error. -/
def finishTask (t : Task) (outcome : Option String) : Task :=
  match outcome with
  | none => { t with status := TaskStatus.completed }
  | some e =>
    { t with status := TaskStatus.failed,
             error := if e ≠ "" then some e else t.error }

/-! ### Uploads with tasks (`uploadFilesWithTasks`)

Source worker, for one item `{ filePath, task }` whose upload outcome is
either success (`none`) or a thrown error (`some e`, the `String(err)`):
```
updateTaskStatus(task.id, "running");
try { await api.uploadFile(...); updateTaskStatus(task.id, "completed"); }
catch (err) { updateTaskStatus(task.id, "failed", String(err)); }
```
`runUploadWorker` is that worker's effect on the task store. The batch
model runs one worker per created task; workers for distinct ids only
touch their own task, so the sequential fold gives the same final store
as any interleaving of the pool. -/

def runUploadWorker (store : List Task) (taskId : Nat)
    (outcome : Option String) : List Task :=
  let s1 := updateTaskStatus store taskId TaskStatus.running none
  match outcome with
  | none => updateTaskStatus s1 taskId TaskStatus.completed none
  | some e => updateTaskStatus s1 taskId TaskStatus.failed (some e)

/-- Final task store of `uploadFilesWithTasks` on a batch of file names
whose per-file upload outcomes are given (`none` = success). The store
starts holding exactly the freshly created batch; pre-existing tasks
have smaller ids and are never matched by the fresh ids. -/
def uploadBatchFinalStore (fileNames : List String)
    (outcomes : List (Option String)) : List Task :=
  let created := addTasksBatch 0 TaskType.upload fileNames
  (created.zip outcomes).foldl
    (fun store p => runUploadWorker store p.1.id p.2) created

/-- Status trajectory of one task through the batch: created pending by
`addTasksBatch`, set running by its worker, then completed or failed. -/
def taskStatusTrace (outcome : Option String) : List TaskStatus :=
  [TaskStatus.pending, TaskStatus.running,
   match outcome with
   | none => TaskStatus.completed
   | some _ => TaskStatus.failed]

/-! ### Sync engine (`sync_once`, backend)

The backend `sync_folder` command invoked by `api.syncFolder` is not
part of the frontend sources; the engine below follows the spec's
description of the Diff Planner and Task Scheduler for the
LocalToRemote direction, with a side mapping as an association list
from relative path to content fingerprint. -/

/-- Modelled from the spec (the backend sync engine is not in the
frontend sources): `SyncOperation` is a tagged variant over
Upload / Download / DeleteLocal / DeleteRemote / Skip per relative
path; an upload carries the fingerprint of the local content it
transfers (put_object copies the bytes, and identical bytes yield the
identical digest). -/
inductive SyncOp where
  | upload (path fingerprint : String)
  | download (path : String)
  | deleteLocal (path : String)
  | deleteRemote (path : String)
  | skip (path : String)
deriving DecidableEq

/-- Modelled from the spec: lookup in a `SideMapping` (an
order-irrelevant mapping from relative path to fingerprint). -/
def lookupSide : List (String × String) → String → Option String
  | [], _ => none
  | e :: rest, p => if e.1 = p then some e.2 else lookupSide rest p

/-- Modelled from the spec: store an entry in a `SideMapping`,
overwriting the entry for the path or adding it when absent. -/
def setSide : List (String × String) → String → String → List (String × String)
  | [], p, v => [(p, v)]
  | e :: rest, p, v =>
    if e.1 = p then (p, v) :: rest else e :: setSide rest p v

/-- Modelled from the spec: the Diff Planner for direction
LocalToRemote — for a path present only locally, Upload; present on
both, Skip when fingerprints are equal, else Upload (local is the
source of truth); present only remotely, Skip (LocalToRemote never
deletes remote orphans unless explicitly enabled, which this system
does not do). -/
def planEntry (remote : List (String × String)) (e : String × String) : SyncOp :=
  if lookupSide remote e.1 = some e.2 then SyncOp.skip e.1
  else SyncOp.upload e.1 e.2

/-- Modelled from the spec: the full Diff Planner output for direction
LocalToRemote — one operation per relative path in the union of both
sides: the planner decision for each local entry, then Skip for every
remote-only entry (LocalToRemote never deletes remote orphans unless
explicitly enabled, which this system does not do). -/
def planLocalToRemote (local' remote : List (String × String)) : List SyncOp :=
  local'.map (planEntry remote)
  ++ (remote.filter (fun e => lookupSide local' e.1 = none)).map
      (fun e => SyncOp.skip e.1)

/-- Modelled from the spec: executing one operation against the remote
side; an upload stores the transferred content's fingerprint under the
path, a skip changes nothing (no other operation kind is planned for
LocalToRemote). -/
def applySyncOp (remote : List (String × String)) : SyncOp → List (String × String)
  | SyncOp.upload p v => setSide remote p v
  | _ => remote

/-- Modelled from the spec: executing a whole batch in plan order. -/
def applySyncOps (remote : List (String × String)) (ops : List SyncOp) :
    List (String × String) :=
  ops.foldl applySyncOp remote

/-- Modelled from the spec: the accumulated uploaded count of a batch
in which every transfer succeeds. -/
def countUploads (ops : List SyncOp) : Nat :=
  (ops.filter (fun o => match o with | SyncOp.upload _ _ => true | _ => false)).length

/-- Modelled from the spec: the accumulated skipped count of a batch. -/
def countSkips (ops : List SyncOp) : Nat :=
  (ops.filter (fun o => match o with | SyncOp.skip _ => true | _ => false)).length

/-- Modelled from the spec: `sync_once` with direction LocalToRemote on
a run where every transfer succeeds — plan, execute, and return the
accumulated `SyncResult` (LocalToRemote performs no downloads and no
deletions) together with the resulting remote side. -/
def syncOnce (local' remote : List (String × String)) :
    SyncResult × List (String × String) :=
  let plan := planLocalToRemote local' remote
  ({ uploaded := countUploads plan, downloaded := 0, deleted := 0,
     skipped := countSkips plan },
   applySyncOps remote plan)

/-! ## Theorems -/

/-! ### Error log -/

theorem showError_length_le (msg : String) (l : List String)
    (h : l.length ≤ 50) : (showError msg l).length ≤ 50 := by
  simp only [showError]
  split
  · simp only [List.length_dropLast, List.length_cons]
    omega
  · rename_i hle
    simp only [List.length_cons] at hle ⊢
    omega

theorem applyErrOp_length_le (l : List String) (op : ErrOp)
    (h : l.length ≤ 50) : (applyErrOp l op).length ≤ 50 := by
  cases op with
  | push m => exact showError_length_le m l h
  | clear => simp [applyErrOp, clearErrors]

theorem foldl_applyErrOp_length_le (ops : List ErrOp) :
    ∀ l : List String, l.length ≤ 50 →
      (ops.foldl applyErrOp l).length ≤ 50 := by
  induction ops with
  | nil => intro l h; simpa using h
  | cons op rest ih =>
    intro l h
    exact ih (applyErrOp l op) (applyErrOp_length_le l op h)

theorem showError_head (msg : String) (l : List String) :
    (showError msg l).head? = some msg := by
  simp only [showError]
  split
  · rename_i h
    cases l with
    | nil => simp at h
    | cons a t => simp [List.dropLast]
  · simp

theorem showError_at_cap (msg : String) (l : List String)
    (h : l.length = 50) : showError msg l = msg :: l.dropLast := by
  simp only [showError]
  split
  · rename_i hgt
    cases l with
    | nil => simp at h
    | cons a t => simp [List.dropLast]
  · rename_i hle
    simp only [List.length_cons] at hle
    omega

/-- C8: after every sequence of `showError` / `clearErrors` calls the
error log holds at most 50 messages; a further `showError` always
places its message at index 0, and when the log is at the 50-message
bound it drops the oldest (last) entry. -/
theorem errorLog_bounded_newest_first (ops : List ErrOp) (msg : String) :
    (runErrOps ops).length ≤ 50 ∧
    (showError msg (runErrOps ops)).head? = some msg ∧
    ((runErrOps ops).length = 50 →
      showError msg (runErrOps ops) = msg :: (runErrOps ops).dropLast) :=
  ⟨foldl_applyErrOp_length_le ops [] (by simp),
   showError_head msg (runErrOps ops),
   fun h => showError_at_cap msg (runErrOps ops) h⟩

theorem errorLog_bounded_newest_first_witness :
    (runErrOps [ErrOp.push "a", ErrOp.push "b"]).length ≤ 50 ∧
    (showError "c" (runErrOps [ErrOp.push "a", ErrOp.push "b"])).head?
      = some "c" ∧
    ((runErrOps [ErrOp.push "a", ErrOp.push "b"]).length = 50 →
      showError "c" (runErrOps [ErrOp.push "a", ErrOp.push "b"])
        = "c" :: (runErrOps [ErrOp.push "a", ErrOp.push "b"]).dropLast) :=
  errorLog_bounded_newest_first [ErrOp.push "a", ErrOp.push "b"] "c"

/-! ### HTML escaping -/

theorem replaceChar_append (c : Char) (rep : List Char) (a b : List Char) :
    replaceChar c rep (a ++ b) = replaceChar c rep a ++ replaceChar c rep b := by
  induction a with
  | nil => simp [replaceChar]
  | cons d rest ih => simp [replaceChar, ih]

theorem escapeHtml_append (a b : List Char) :
    escapeHtml (a ++ b) = escapeHtml a ++ escapeHtml b := by
  simp [escapeHtml, replaceChar_append]

theorem escapeHtml_cons (x : Char) (s : List Char) :
    escapeHtml (x :: s) = escapeHtml [x] ++ escapeHtml s :=
  escapeHtml_append [x] s

theorem wellEscaped_escapeHtml (s : List Char) : WellEscaped (escapeHtml s) := by
  induction s with
  | nil => exact WellEscaped.nil
  | cons x s ih =>
    rw [escapeHtml_cons]
    by_cases h1 : x = '&'
    · subst h1
      have e : escapeHtml ['&'] = '&' :: ['a', 'm', 'p', ';'] := by decide
      rw [e]
      exact WellEscaped.amp ['a', 'm', 'p', ';'] (escapeHtml s) (by decide) ih
    · by_cases h2 : x = '<'
      · subst h2
        have e : escapeHtml ['<'] = '&' :: ['l', 't', ';'] := by decide
        rw [e]
        exact WellEscaped.amp ['l', 't', ';'] (escapeHtml s) (by decide) ih
      · by_cases h3 : x = '>'
        · subst h3
          have e : escapeHtml ['>'] = '&' :: ['g', 't', ';'] := by decide
          rw [e]
          exact WellEscaped.amp ['g', 't', ';'] (escapeHtml s) (by decide) ih
        · by_cases h4 : x = '"'
          · subst h4
            have e : escapeHtml ['"'] = '&' :: ['q', 'u', 'o', 't', ';'] := by
              decide
            rw [e]
            exact WellEscaped.amp ['q', 'u', 'o', 't', ';'] (escapeHtml s)
              (by decide) ih
          · have e : escapeHtml [x] = [x] := by
              simp [escapeHtml, replaceChar, h1, h2, h3, h4]
            rw [e]
            exact WellEscaped.other x (escapeHtml s) h1 h2 h3 h4 ih

theorem wellEscaped_no_raw (l : List Char) (h : WellEscaped l) :
    '<' ∉ l ∧ '>' ∉ l ∧ '"' ∉ l := by
  induction h with
  | nil => simp
  | amp tail rest ht _ ih =>
    have htail : '<' ∉ tail ∧ '>' ∉ tail ∧ '"' ∉ tail := by
      simp only [entityTails, List.mem_cons, List.mem_singleton,
        List.not_mem_nil, or_false] at ht
      rcases ht with h | h | h | h <;> subst h <;> refine ⟨?_, ?_, ?_⟩ <;> decide
    refine ⟨?_, ?_, ?_⟩ <;>
      simp only [List.mem_cons, List.mem_append] <;>
      push_neg <;>
      exact ⟨by decide, fun hm => absurd hm (by tauto), fun hm => absurd hm (by tauto)⟩
  | other c rest h1 h2 h3 h4 _ ih =>
    refine ⟨?_, ?_, ?_⟩ <;> simp only [List.mem_cons] <;> push_neg <;>
      constructor
    · exact fun he => h2 he.symm
    · exact ih.1
    · exact fun he => h3 he.symm
    · exact ih.2.1
    · exact fun he => h4 he.symm
    · exact ih.2.2

/-- C9: `escapeHtml` output never contains a raw `<`, `>` or `"`, and
every `&` in the output starts one of the entities `&amp;`, `&lt;`,
`&gt;`, `&quot;` (ampersands are escaped first), so text rendered
through it cannot introduce raw HTML markup. -/
theorem escapeHtml_no_raw_markup (s : List Char) :
    WellEscaped (escapeHtml s) ∧
    '<' ∉ escapeHtml s ∧ '>' ∉ escapeHtml s ∧ '"' ∉ escapeHtml s :=
  ⟨wellEscaped_escapeHtml s, wellEscaped_no_raw _ (wellEscaped_escapeHtml s)⟩

/-! ### Sync completion payload -/

/-- C4, counterexample: the sync completion payload carries no deleted
count and no skipped count — the claim that every completion event
carries all four result counts is false of the declared payload. -/
theorem syncCompletedPayload_missing_counts :
    ¬ (("deleted" ∈ syncCompletedPayloadFields ∨
        "files_deleted" ∈ syncCompletedPayloadFields) ∧
       ("skipped" ∈ syncCompletedPayloadFields ∨
        "files_skipped" ∈ syncCompletedPayloadFields)) := by
  decide

/-- C4, amended: a sync completion event carries the sync id and the
uploaded and downloaded counts only; deleted and skipped counts are
absent from the completion payload (the four counts together exist only
in the `SyncResult` returned by `sync_folder`). -/
theorem syncCompletedPayload_fields :
    "sync_id" ∈ syncCompletedPayloadFields ∧
    "files_uploaded" ∈ syncCompletedPayloadFields ∧
    "files_downloaded" ∈ syncCompletedPayloadFields ∧
    "deleted" ∉ syncCompletedPayloadFields ∧
    "files_deleted" ∉ syncCompletedPayloadFields ∧
    "skipped" ∉ syncCompletedPayloadFields ∧
    "files_skipped" ∉ syncCompletedPayloadFields ∧
    syncResultFields = ["uploaded", "downloaded", "deleted", "skipped"] := by
  decide

/-! ### One-shot sync direction -/

/-- C7: whenever `syncWithLocal` reaches the `api.syncFolder` call —
for every profile, bucket, prefix and selected folder — the direction
argument of that call is the string `local_to_remote`. -/
theorem syncWithLocal_direction (p b : Option String) (pfx : String)
    (folder : Option String) (call : SyncCall)
    (h : syncWithLocal p b pfx folder = some call) :
    call.direction = "local_to_remote" := by
  cases p with
  | none => simp [syncWithLocal] at h
  | some pid =>
    cases b with
    | none => simp [syncWithLocal] at h
    | some bk =>
      cases folder with
      | none => simp [syncWithLocal] at h
      | some f =>
        simp only [syncWithLocal, Option.some.injEq] at h
        rw [← h]

theorem syncWithLocal_direction_witness :
    syncWithLocal (some "p") (some "b") "media/" (some "/home/u/media")
      = some { profileId := "p", bucket := "b", pfx := "media/",
               localPath := "/home/u/media", direction := "local_to_remote" } ∧
    SyncCall.direction
      { profileId := "p", bucket := "b", pfx := "media/",
        localPath := "/home/u/media", direction := "local_to_remote" }
      = "local_to_remote" :=
  ⟨rfl, syncWithLocal_direction (some "p") (some "b") "media/"
    (some "/home/u/media") _ rfl⟩

/-! ### Search debounce -/

theorem getLast?_cons_getD (b e : Nat) (t : List Nat) :
    (b :: t).getLast?.getD e = t.getLast?.getD b := by
  induction t generalizing b e with
  | nil => simp
  | cons c t' ih =>
    rw [List.getLast?_cons_cons]
    rw [show (c :: t').getLast?.getD b = t'.getLast?.getD c from ih c b]
    exact ih c e

theorem debounce_foldl (rest : List Nat) :
    ∀ e runs : Nat,
      List.Chain (fun a b => b < a + searchDebounceMs) e rest →
      rest.foldl debounceInput ⟨some (e + searchDebounceMs), runs⟩
        = ⟨some (rest.getLast?.getD e + searchDebounceMs), runs⟩ := by
  induction rest with
  | nil => intro e runs _; simp
  | cons b t ih =>
    intro e runs hch
    cases hch with
    | cons hb hc =>
      rw [List.foldl_cons]
      have hstep : debounceInput ⟨some (e + searchDebounceMs), runs⟩ b
          = ⟨some (b + searchDebounceMs), runs⟩ := by
        simp only [debounceInput]
        rw [if_neg (by omega : ¬ e + searchDebounceMs ≤ b)]
        simp
      rw [hstep, ih b runs hc, getLast?_cons_getD]

/-- C5: a burst of one initial event followed by further events each
arriving within 300 ms of the previous one causes exactly one reload
run: each event cancels and re-arms the pending timer, no run fires
during the burst, and the single run is the timer left pending 300 ms
after the last event. -/
theorem debounce_coalesces (e : Nat) (rest : List Nat)
    (h : List.Chain (fun a b => b < a + searchDebounceMs) e rest) :
    debounceTotalRuns (e :: rest) = 1 ∧
    (debounceProcess (e :: rest)).runs = 0 ∧
    (debounceProcess (e :: rest)).timer
      = some (rest.getLast?.getD e + searchDebounceMs) := by
  have h1 : debounceProcess (e :: rest)
      = ⟨some (rest.getLast?.getD e + searchDebounceMs), 0⟩ := by
    unfold debounceProcess
    rw [List.foldl_cons]
    rw [show debounceInput ⟨none, 0⟩ e = ⟨some (e + searchDebounceMs), 0⟩ from rfl]
    exact debounce_foldl rest e 0 h
  refine ⟨?_, ?_, ?_⟩ <;> simp [debounceTotalRuns, h1]

theorem debounce_coalesces_witness :
    List.Chain (fun a b => b < a + searchDebounceMs) 0 [100, 250, 400] ∧
    (debounceTotalRuns [0, 100, 250, 400] = 1 ∧
     (debounceProcess [0, 100, 250, 400]).runs = 0 ∧
     (debounceProcess [0, 100, 250, 400]).timer
       = some ([100, 250, 400].getLast?.getD 0 + searchDebounceMs)) := by
  have hch : List.Chain (fun a b => b < a + searchDebounceMs) 0 [100, 250, 400] :=
    List.Chain.cons (by decide) (List.Chain.cons (by decide)
      (List.Chain.cons (by decide) List.Chain.nil))
  exact ⟨hch, debounce_coalesces 0 [100, 250, 400] hch⟩

/-! ### Task pool: in-flight bound (C1) -/

theorem poolStep_preserves_bound {α : Type} {c : Nat}
    {s t : List α × List α} (hstep : PoolStep c s t)
    (hs : s.2.length ≤ c) : t.2.length ≤ c := by
  cases hstep with
  | dispatch x queue running hlt =>
    simpa using hlt
  | complete queue running i hi =>
    have hlen := List.length_eraseIdx_add_one hi
    dsimp only at hs ⊢
    omega

theorem poolReach_preserves_bound {α : Type} {c : Nat}
    {s t : List α × List α} (h : PoolReach c s t)
    (hs : s.2.length ≤ c) : t.2.length ≤ c := by
  induction h with
  | refl => exact hs
  | tail _ hstep ih => exact poolStep_preserves_bound hstep ih

/-- C1: from the initial state (all items queued, nothing in flight),
every state the pool loop can reach keeps the running set's size at
most the concurrency limit N ≥ 1, and the limit used for uploads is
`MAX_CONCURRENT_UPLOADS = 20`. -/
theorem runWithConcurrency_bounded {α : Type} (c : Nat)
    (items queue running : List α) (hc : 1 ≤ c)
    (h : PoolReach c (items, []) (queue, running)) :
    running.length ≤ c ∧ MAX_CONCURRENT_UPLOADS = 20 :=
  ⟨poolReach_preserves_bound h (by simp), rfl⟩

theorem runWithConcurrency_bounded_witness :
    (1 ≤ MAX_CONCURRENT_UPLOADS ∧
      PoolReach MAX_CONCURRENT_UPLOADS ([1, 2], ([] : List Nat)) ([2], [1])) ∧
    ([1].length ≤ MAX_CONCURRENT_UPLOADS ∧ MAX_CONCURRENT_UPLOADS = 20) := by
  have hreach : PoolReach MAX_CONCURRENT_UPLOADS ([1, 2], ([] : List Nat)) ([2], [1]) :=
    Relation.ReflTransGen.single (PoolStep.dispatch 1 [2] [] (by decide))
  exact ⟨⟨by decide, hreach⟩,
    runWithConcurrency_bounded MAX_CONCURRENT_UPLOADS [1, 2] [2] [1] (by decide) hreach⟩

/-! ### Task pool: executable run (C2, C10) -/

theorem fillQueue_queue_eq {α : Type} (c : Nat) :
    ∀ (queue running : List α),
      (fillQueue c queue running).2.2 ++ (fillQueue c queue running).1 = queue := by
  intro queue
  induction queue with
  | nil => intro running; simp [fillQueue]
  | cons x q ih =>
    intro running
    simp only [fillQueue]
    split
    · simpa using ih (running ++ [x])
    · simp

theorem fillQueue_running_length {α : Type} (c : Nat) :
    ∀ (queue running : List α),
      (fillQueue c queue running).2.1.length
        = running.length + (fillQueue c queue running).2.2.length := by
  intro queue
  induction queue with
  | nil => intro running; simp [fillQueue]
  | cons x q ih =>
    intro running
    simp only [fillQueue]
    split
    · have := ih (running ++ [x])
      simp only [List.length_append, List.length_singleton] at this
      simp only [List.length_cons, this]
      omega
    · simp

theorem fillQueue_running_pos {α : Type} (c : Nat) (hc : 1 ≤ c) :
    ∀ (queue running : List α), ¬(queue = [] ∧ running = []) →
      0 < (fillQueue c queue running).2.1.length := by
  intro queue
  cases queue with
  | nil =>
    intro running hne
    have hr : running ≠ [] := fun h => hne ⟨rfl, h⟩
    simp only [fillQueue]
    exact List.length_pos.mpr hr
  | cons x q =>
    intro running _
    simp only [fillQueue]
    split
    · rw [fillQueue_running_length]
      simp only [List.length_append, List.length_singleton]
      omega
    · rename_i hge
      simp only [List.length_cons] at hge ⊢
      omega

theorem runPool_trace {α : Type} (c : Nat) :
    ∀ (fuel : Nat) (choices : List Nat) (queue running tr : List α),
      runPool c fuel choices queue running = some tr → tr = queue := by
  intro fuel
  induction fuel with
  | zero =>
    intro choices queue running tr h
    rw [runPool] at h
    split at h
    · rename_i hq
      simp only [Bool.and_eq_true, List.isEmpty_iff] at hq
      cases h
      exact hq.1.symm
    · exact absurd h (by simp)
  | succ f ih =>
    intro choices queue running tr h
    rw [runPool] at h
    split at h
    · rename_i hq
      simp only [Bool.and_eq_true, List.isEmpty_iff] at hq
      cases h
      exact hq.1.symm
    · split at h
      · exact absurd h (by simp)
      · rw [Option.map_eq_some'] at h
        obtain ⟨rest, hrest, htr⟩ := h
        subst htr
        rw [ih _ _ _ _ hrest]
        exact fillQueue_queue_eq c queue running

/-- C2: whenever the pool run completes — in particular with a
concurrency cap smaller than the batch — the dispatch trace is exactly
the input batch, so each queued item's worker is invoked exactly once;
and each task's status trajectory is pending, then running exactly
once, then a terminal status, with no running-to-running transition. -/
theorem runPool_dispatches_each_once {α : Type} [DecidableEq α]
    (c fuel : Nat) (choices : List Nat) (items tr : List α)
    (h : runPool c fuel choices items [] = some tr) (hnd : items.Nodup) :
    tr = items ∧ (∀ x ∈ items, tr.count x = 1) ∧
    ∀ outcome : Option String,
      (taskStatusTrace outcome).count TaskStatus.running = 1 ∧
      (taskStatusTrace outcome).head? = some TaskStatus.pending ∧
      ((taskStatusTrace outcome).getLast? = some TaskStatus.completed ∨
        (taskStatusTrace outcome).getLast? = some TaskStatus.failed) ∧
      List.Chain' (fun a b => ¬(a = TaskStatus.running ∧ b = TaskStatus.running))
        (taskStatusTrace outcome) := by
  have htr : tr = items := runPool_trace c fuel choices items [] tr h
  subst htr
  refine ⟨rfl, ?_, ?_⟩
  · intro x hx
    exact List.count_eq_one_of_mem hnd hx
  · intro outcome
    cases outcome with
    | none => refine ⟨rfl, rfl, Or.inl rfl, ?_⟩ <;> simp [taskStatusTrace]
    | some e => refine ⟨rfl, rfl, Or.inr rfl, ?_⟩ <;> simp [taskStatusTrace]

theorem runPool_dispatches_each_once_witness :
    (runPool 2 3 [] [0, 1, 2] ([] : List Nat) = some [0, 1, 2] ∧
      ([0, 1, 2] : List Nat).Nodup) ∧
    (([0, 1, 2] : List Nat) = [0, 1, 2] ∧
      (∀ x ∈ ([0, 1, 2] : List Nat), ([0, 1, 2] : List Nat).count x = 1) ∧
      ∀ outcome : Option String,
        (taskStatusTrace outcome).count TaskStatus.running = 1 ∧
        (taskStatusTrace outcome).head? = some TaskStatus.pending ∧
        ((taskStatusTrace outcome).getLast? = some TaskStatus.completed ∨
          (taskStatusTrace outcome).getLast? = some TaskStatus.failed) ∧
        List.Chain' (fun a b => ¬(a = TaskStatus.running ∧ b = TaskStatus.running))
          (taskStatusTrace outcome)) :=
  ⟨⟨by decide, by decide⟩,
    runPool_dispatches_each_once 2 3 [] [0, 1, 2] [0, 1, 2] (by decide) (by decide)⟩

theorem runPool_total {α : Type} (c : Nat) (hc : 1 ≤ c) :
    ∀ (fuel : Nat) (choices : List Nat) (queue running : List α),
      queue.length + running.length ≤ fuel →
      ∃ tr, runPool c fuel choices queue running = some tr := by
  intro fuel
  induction fuel with
  | zero =>
    intro choices queue running hle
    have hq : queue = [] := by
      cases queue with
      | nil => rfl
      | cons _ _ => simp at hle
    have hr : running = [] := by
      cases running with
      | nil => rfl
      | cons _ _ => simp at hle
    subst hq; subst hr
    exact ⟨[], by rw [runPool]; simp⟩
  | succ f ih =>
    intro choices queue running hle
    by_cases hqr : queue = [] ∧ running = []
    · obtain ⟨hq, hr⟩ := hqr
      subst hq; subst hr
      exact ⟨[], by rw [runPool]; simp⟩
    · have hpos : 0 < (fillQueue c queue running).2.1.length :=
        fillQueue_running_pos c hc queue running hqr
      have hi : choices.headD 0 % (fillQueue c queue running).2.1.length
          < (fillQueue c queue running).2.1.length := Nat.mod_lt _ hpos
      have herase := List.length_eraseIdx_add_one hi
      have hqlen : (fillQueue c queue running).2.2.length
          + (fillQueue c queue running).1.length = queue.length := by
        have := fillQueue_queue_eq c queue running
        calc (fillQueue c queue running).2.2.length
            + (fillQueue c queue running).1.length
            = ((fillQueue c queue running).2.2 ++ (fillQueue c queue running).1).length := by
              simp
          _ = queue.length := by rw [this]
      have hrlen := fillQueue_running_length c queue running
      obtain ⟨rest, hrest⟩ := ih choices.tail (fillQueue c queue running).1
        ((fillQueue c queue running).2.1.eraseIdx
          (choices.headD 0 % (fillQueue c queue running).2.1.length))
        (by omega)
      refine ⟨(fillQueue c queue running).2.2 ++ rest, ?_⟩
      rw [runPool]
      rw [if_neg ?_]
      · rw [if_neg (by omega)]
        rw [hrest]
        rfl
      · simp only [Bool.and_eq_true, List.isEmpty_iff]
        exact fun hh => hqr hh

/-- C10: with any concurrency limit N ≥ 1 (the loop's inner `while`
can always dispatch or there is an in-flight promise to await), the
pool loop terminates on every finite item list whose workers all
settle: fuel equal to the number of items suffices, because every outer
iteration settles exactly one in-flight promise. -/
theorem runWithConcurrency_terminates {α : Type} (c : Nat) (hc : 1 ≤ c)
    (choices : List Nat) (items : List α) :
    ∃ tr, runPool c items.length choices items [] = some tr :=
  runPool_total c hc items.length choices items [] (by simp)

theorem runWithConcurrency_terminates_witness :
    1 ≤ MAX_CONCURRENT_UPLOADS ∧
    ∃ tr, runPool MAX_CONCURRENT_UPLOADS ([0, 1, 2] : List Nat).length
      [] [0, 1, 2] [] = some tr :=
  ⟨by decide,
    runWithConcurrency_terminates MAX_CONCURRENT_UPLOADS (by decide) [] [0, 1, 2]⟩

/-! ### Upload batch: failure isolation (C3) -/

theorem updateTaskStatus_findTask (store : List Task) (taskId : Nat)
    (status : TaskStatus) (error : Option String) :
    findTask (updateTaskStatus store taskId status error) taskId
      = (findTask store taskId).map (fun t => applyStatus t status error) := by
  induction store with
  | nil => rfl
  | cons t rest ih =>
    simp only [updateTaskStatus, findTask]
    by_cases h : t.id = taskId
    · rw [if_pos h]
      simp only [findTask]
      rw [if_pos h, if_pos h]
      rfl
    · rw [if_neg h]
      simp only [findTask]
      rw [if_neg h, if_neg h]
      exact ih

theorem updateTaskStatus_findTask_ne (store : List Task) (taskId other : Nat)
    (status : TaskStatus) (error : Option String) (hne : other ≠ taskId) :
    findTask (updateTaskStatus store taskId status error) other
      = findTask store other := by
  induction store with
  | nil => rfl
  | cons t rest ih =>
    simp only [updateTaskStatus, findTask]
    by_cases h : t.id = taskId
    · rw [if_pos h]
      simp only [findTask]
      have : ¬ t.id = other := fun he => hne (he.symm.trans h)
      rw [if_neg (by simpa using this), if_neg this]
    · rw [if_neg h]
      simp only [findTask]
      by_cases h2 : t.id = other
      · rw [if_pos h2, if_pos h2]
      · rw [if_neg h2, if_neg h2]
        exact ih

theorem runUploadWorker_findTask (store : List Task) (taskId : Nat)
    (outcome : Option String) :
    findTask (runUploadWorker store taskId outcome) taskId
      = (findTask store taskId).map (fun t => finishTask t outcome) := by
  cases outcome with
  | none =>
    simp only [runUploadWorker, updateTaskStatus_findTask, Option.map_map]
    cases hf : findTask store taskId with
    | none => rfl
    | some t => simp [applyStatus, finishTask]
  | some e =>
    simp only [runUploadWorker, updateTaskStatus_findTask, Option.map_map]
    cases hf : findTask store taskId with
    | none => rfl
    | some t => simp [applyStatus, finishTask]

theorem runUploadWorker_findTask_ne (store : List Task) (taskId other : Nat)
    (outcome : Option String) (hne : other ≠ taskId) :
    findTask (runUploadWorker store taskId outcome) other
      = findTask store other := by
  cases outcome with
  | none => simp [runUploadWorker, updateTaskStatus_findTask_ne _ _ _ _ _ hne]
  | some e => simp [runUploadWorker, updateTaskStatus_findTask_ne _ _ _ _ _ hne]

theorem foldWorkers_findTask_ne (pairs : List (Task × Option String)) :
    ∀ (store : List Task) (taskId : Nat),
      (∀ p ∈ pairs, p.1.id ≠ taskId) →
      findTask (pairs.foldl (fun s p => runUploadWorker s p.1.id p.2) store) taskId
        = findTask store taskId := by
  induction pairs with
  | nil => intro store taskId _; rfl
  | cons p0 rest ih =>
    intro store taskId hall
    rw [List.foldl_cons]
    rw [ih _ taskId (fun p hp => hall p (List.mem_cons_of_mem p0 hp))]
    exact runUploadWorker_findTask_ne store p0.1.id taskId p0.2
      (fun he => hall p0 (List.mem_cons_self p0 rest) he.symm)

theorem foldWorkers_findTask (pairs : List (Task × Option String)) :
    ∀ (store : List Task),
      (pairs.map (fun p => p.1.id)).Nodup →
      ∀ p ∈ pairs,
        findTask (pairs.foldl (fun s q => runUploadWorker s q.1.id q.2) store) p.1.id
          = (findTask store p.1.id).map (fun t => finishTask t p.2) := by
  induction pairs with
  | nil => intro store _ p hp; exact absurd hp (List.not_mem_nil p)
  | cons p0 rest ih =>
    intro store hnd p hp
    rw [List.map_cons, List.nodup_cons] at hnd
    rw [List.foldl_cons]
    rcases List.mem_cons.mp hp with hp0 | hprest
    · subst hp0
      rw [foldWorkers_findTask_ne rest _ p.1.id
        (fun q hq hqe => hnd.1 (hqe ▸ List.mem_map_of_mem (fun r => r.1.id) hq))]
      exact runUploadWorker_findTask store p.1.id p.2
    · rw [ih _ hnd.2 p hprest]
      rw [runUploadWorker_findTask_ne store p0.1.id p.1.id p0.2
        (fun he => hnd.1 (he ▸ List.mem_map_of_mem (fun r => r.1.id) hprest))]

theorem addTasksBatch_length (ty : TaskType) :
    ∀ (names : List String) (counter : Nat),
      (addTasksBatch counter ty names).length = names.length := by
  intro names
  induction names with
  | nil => intro counter; rfl
  | cons n rest ih => intro counter; simp [addTasksBatch, ih]

theorem addTasksBatch_ids (ty : TaskType) :
    ∀ (names : List String) (counter : Nat),
      (addTasksBatch counter ty names).map (fun t => t.id)
        = List.range' (counter + 1) names.length := by
  intro names
  induction names with
  | nil => intro counter; rfl
  | cons n rest ih =>
    intro counter
    simp only [addTasksBatch, List.map_cons, List.length_cons, List.range'_succ]
    rw [ih (counter + 1)]

theorem addTasksBatch_get (ty : TaskType) :
    ∀ (names : List String) (counter k : Nat) (hk : k < names.length),
      (addTasksBatch counter ty names).get
          ⟨k, by rw [addTasksBatch_length]; exact hk⟩
        = { id := counter + k + 1, type := ty,
            fileName := names.get ⟨k, hk⟩,
            status := TaskStatus.pending, error := none } := by
  intro names
  induction names with
  | nil => intro counter k hk; exact absurd hk (by simp)
  | cons n rest ih =>
    intro counter k hk
    cases k with
    | zero => rfl
    | succ k' =>
      have hk' : k' < rest.length := by simpa using hk
      have := ih (counter + 1) k' hk'
      simp only [addTasksBatch, List.get_cons_succ]
      rw [this]
      have : counter + 1 + k' + 1 = counter + (k' + 1) + 1 := by omega
      simp [this]

theorem findTask_get (store : List Task) :
    ∀ (k : Nat) (hk : k < store.length),
      (store.map (fun t => t.id)).Nodup →
      findTask store ((store.get ⟨k, hk⟩).id) = some (store.get ⟨k, hk⟩) := by
  induction store with
  | nil => intro k hk; simp at hk
  | cons t rest ih =>
    intro k hk hnd
    rw [List.map_cons, List.nodup_cons] at hnd
    cases k with
    | zero => simp [findTask]
    | succ k' =>
      have hk' : k' < rest.length := by simpa using hk
      simp only [List.get_cons_succ, findTask]
      rw [if_neg, ih k' hk' hnd.2]
      intro he
      exact hnd.1 (by rw [he]; exact List.mem_map_of_mem _ (List.get_mem rest _ _))

/-- C3: in an upload batch where exactly one operation fails (with a
nonempty stringified error), only that operation's task ends failed and
it records the error reason; every other task in the batch still ends
in its own terminal state, completed. -/
theorem uploadBatch_isolates_failure (names : List String)
    (outcomes : List (Option String)) (j : Nat) (e : String)
    (hlen : outcomes.length = names.length)
    (hj : j < names.length)
    (hje : outcomes[j]? = some (some e))
    (hne : e ≠ "")
    (hothers : ∀ k : Nat, k < names.length → k ≠ j → outcomes[k]? = some none) :
    (∃ t, findTask (uploadBatchFinalStore names outcomes) (j + 1) = some t ∧
      t.status = TaskStatus.failed ∧ t.error = some e) ∧
    (∀ k : Nat, k < names.length → k ≠ j →
      ∃ t, findTask (uploadBatchFinalStore names outcomes) (k + 1) = some t ∧
        t.status = TaskStatus.completed) := by
  have hclen : (addTasksBatch 0 TaskType.upload names).length = names.length :=
    addTasksBatch_length TaskType.upload names 0
  have hfold : uploadBatchFinalStore names outcomes
      = ((addTasksBatch 0 TaskType.upload names).zip outcomes).foldl
          (fun s q => runUploadWorker s q.1.id q.2)
          (addTasksBatch 0 TaskType.upload names) := rfl
  have hmapfst : ((addTasksBatch 0 TaskType.upload names).zip outcomes).map Prod.fst
      = addTasksBatch 0 TaskType.upload names :=
    List.map_fst_zip _ _ (by omega)
  have hids : (((addTasksBatch 0 TaskType.upload names).zip outcomes).map
      (fun p => p.1.id)).Nodup := by
    have h1 : ((addTasksBatch 0 TaskType.upload names).zip outcomes).map
        (fun p => p.1.id)
        = (((addTasksBatch 0 TaskType.upload names).zip outcomes).map Prod.fst).map
            (fun t => t.id) := by
      rw [List.map_map]
      rfl
    rw [h1, hmapfst, addTasksBatch_ids]
    exact List.nodup_range' _ _
  have hmain : ∀ (k : Nat) (hk : k < names.length) (o : Option String),
      outcomes[k]? = some o →
      findTask (uploadBatchFinalStore names outcomes) (k + 1)
        = some (finishTask
            { id := k + 1, type := TaskType.upload,
              fileName := names.get ⟨k, hk⟩,
              status := TaskStatus.pending, error := none } o) := by
    intro k hk o ho
    have hko : k < outcomes.length := by
      rw [List.getElem?_eq_some_iff] at ho
      exact ho.1
    have hkp : k < ((addTasksBatch 0 TaskType.upload names).zip outcomes).length := by
      rw [List.length_zip]
      omega
    have hoget : outcomes.get ⟨k, hko⟩ = o := by
      have := List.getElem?_eq_getElem hko
      rw [this] at ho
      simpa using ho
    have hcget : (addTasksBatch 0 TaskType.upload names).get ⟨k, by omega⟩
        = { id := k + 1, type := TaskType.upload,
            fileName := names.get ⟨k, hk⟩,
            status := TaskStatus.pending, error := none } := by
      have := addTasksBatch_get TaskType.upload names 0 k hk
      simpa using this
    have hpget : ((addTasksBatch 0 TaskType.upload names).zip outcomes).get ⟨k, hkp⟩
        = ((addTasksBatch 0 TaskType.upload names).get ⟨k, by omega⟩,
           outcomes.get ⟨k, hko⟩) := List.get_zip
    have hmem := List.get_mem ((addTasksBatch 0 TaskType.upload names).zip outcomes)
      k hkp
    have happ := foldWorkers_findTask _ (addTasksBatch 0 TaskType.upload names)
      hids _ hmem
    rw [hpget] at happ
    simp only [hcget, hoget] at happ
    have hfind : findTask (addTasksBatch 0 TaskType.upload names) (k + 1)
        = some { id := k + 1, type := TaskType.upload,
                 fileName := names.get ⟨k, hk⟩,
                 status := TaskStatus.pending, error := none } := by
      have hfg := findTask_get (addTasksBatch 0 TaskType.upload names) k (by omega)
        (by rw [addTasksBatch_ids]; exact List.nodup_range' _ _)
      rw [hcget] at hfg
      exact hfg
    rw [hfold, happ, hfind]
    rfl
  constructor
  · refine ⟨finishTask
      { id := j + 1, type := TaskType.upload, fileName := names.get ⟨j, hj⟩,
        status := TaskStatus.pending, error := none } (some e),
      hmain j hj (some e) hje, ?_, ?_⟩
    · rfl
    · simp [finishTask, hne]
  · intro k hk hkj
    exact ⟨finishTask
      { id := k + 1, type := TaskType.upload, fileName := names.get ⟨k, hk⟩,
        status := TaskStatus.pending, error := none } none,
      hmain k hk none (hothers k hk hkj), rfl⟩

theorem uploadBatch_isolates_failure_witness :
    (([none, none, some "boom"] : List (Option String)).length
        = ["a", "b", "c"].length ∧
      2 < ["a", "b", "c"].length ∧
      ([none, none, some "boom"] : List (Option String))[2]?
        = some (some "boom") ∧
      "boom" ≠ "" ∧
      (∀ k : Nat, k < ["a", "b", "c"].length → k ≠ 2 →
        ([none, none, some "boom"] : List (Option String))[k]? = some none)) ∧
    ((∃ t, findTask (uploadBatchFinalStore ["a", "b", "c"]
          [none, none, some "boom"]) (2 + 1) = some t ∧
        t.status = TaskStatus.failed ∧ t.error = some "boom") ∧
      (∀ k : Nat, k < ["a", "b", "c"].length → k ≠ 2 →
        ∃ t, findTask (uploadBatchFinalStore ["a", "b", "c"]
            [none, none, some "boom"]) (k + 1) = some t ∧
          t.status = TaskStatus.completed)) := by
  refine ⟨⟨rfl, by decide, rfl, by decide, ?_⟩, ?_⟩
  · decide
  · exact uploadBatch_isolates_failure ["a", "b", "c"]
      [none, none, some "boom"] 2 "boom" rfl (by decide) rfl (by decide)
      (by decide)

/-! ### Sync engine idempotence (C6) -/

theorem setSide_lookup_self :
    ∀ (r : List (String × String)) (p v : String),
      lookupSide (setSide r p v) p = some v := by
  intro r
  induction r with
  | nil => intro p v; simp [setSide, lookupSide]
  | cons e rest ih =>
    intro p v
    simp only [setSide]
    by_cases h : e.1 = p
    · rw [if_pos h]
      simp [lookupSide]
    · rw [if_neg h]
      simp only [lookupSide]
      rw [if_neg h]
      exact ih p v

theorem setSide_lookup_ne (q p v : String) (hne : q ≠ p) :
    ∀ r : List (String × String),
      lookupSide (setSide r p v) q = lookupSide r q := by
  intro r
  induction r with
  | nil =>
    simp only [setSide, lookupSide]
    rw [if_neg (fun h : p = q => hne h.symm)]
  | cons e rest ih =>
    simp only [setSide]
    by_cases h : e.1 = p
    · rw [if_pos h]
      simp only [lookupSide]
      rw [if_neg (fun hq : p = q => hne hq.symm), if_neg (h ▸ fun hq => hne hq.symm)]
    · rw [if_neg h]
      simp only [lookupSide]
      by_cases h2 : e.1 = q
      · rw [if_pos h2, if_pos h2]
      · rw [if_neg h2, if_neg h2]
        exact ih

theorem applySyncOps_lookup_untouched (p : String) :
    ∀ (ops : List SyncOp) (r : List (String × String)),
      (∀ q v, SyncOp.upload q v ∈ ops → q ≠ p) →
      lookupSide (applySyncOps r ops) p = lookupSide r p := by
  intro ops
  induction ops with
  | nil => intro r _; rfl
  | cons op rest ih =>
    intro r hall
    have hrest : ∀ q v, SyncOp.upload q v ∈ rest → q ≠ p :=
      fun q v hm => hall q v (List.mem_cons_of_mem op hm)
    have hstep : applySyncOps r (op :: rest) = applySyncOps (applySyncOp r op) rest := by
      simp [applySyncOps]
    rw [hstep, ih _ hrest]
    cases op with
    | upload q v =>
      exact setSide_lookup_ne p q v
        (fun he => hall q v (List.mem_cons_self _ _) he.symm) r
    | download q => rfl
    | deleteLocal q => rfl
    | deleteRemote q => rfl
    | skip q => rfl

theorem applySyncOps_skips :
    ∀ (ops : List SyncOp) (r : List (String × String)),
      (∀ op ∈ ops, ∃ p, op = SyncOp.skip p) → applySyncOps r ops = r := by
  intro ops
  induction ops with
  | nil => intro r _; rfl
  | cons op rest ih =>
    intro r hall
    obtain ⟨p, hp⟩ := hall op (List.mem_cons_self op rest)
    subst hp
    have hstep : applySyncOps r (SyncOp.skip p :: rest)
        = applySyncOps r rest := by
      simp [applySyncOps, applySyncOp]
    rw [hstep]
    exact ih r (fun o ho => hall o (List.mem_cons_of_mem _ ho))

theorem planEntry_upload_path (remote : List (String × String))
    (e : String × String) (q v : String)
    (h : planEntry remote e = SyncOp.upload q v) : q = e.1 := by
  unfold planEntry at h
  by_cases hc : lookupSide remote e.1 = some e.2
  · rw [if_pos hc] at h
    cases h
  · rw [if_neg hc] at h
    cases h
    rfl

theorem applyPlan_lookup (remote : List (String × String)) :
    ∀ (local' r' : List (String × String)),
      (local'.map Prod.fst).Nodup →
      (∀ pf ∈ local', lookupSide r' pf.1 = lookupSide remote pf.1) →
      ∀ pf ∈ local',
        lookupSide (applySyncOps r' (local'.map (planEntry remote))) pf.1
          = some pf.2 := by
  intro local'
  induction local' with
  | nil => intro r' _ _ pf hpf; exact absurd hpf (List.not_mem_nil pf)
  | cons e0 t ih =>
    intro r' hnd happ pf hpf
    rw [List.map_cons, List.nodup_cons] at hnd
    have hstep : applySyncOps r' ((e0 :: t).map (planEntry remote))
        = applySyncOps (applySyncOp r' (planEntry remote e0))
            (t.map (planEntry remote)) := by
      simp [applySyncOps]
    rw [hstep]
    have huntouched : ∀ q v, SyncOp.upload q v ∈ t.map (planEntry remote) →
        q ≠ e0.1 := by
      intro q v hm he
      obtain ⟨x, hx, hxe⟩ := List.mem_map.mp hm
      have : q = x.1 := planEntry_upload_path remote x q v hxe
      exact hnd.1 (he ▸ this ▸ List.mem_map_of_mem Prod.fst hx)
    rcases List.mem_cons.mp hpf with hpe | hpt
    · subst hpe
      rw [applySyncOps_lookup_untouched pf.1 _ _ huntouched]
      unfold planEntry
      by_cases hc : lookupSide remote pf.1 = some pf.2
      · rw [if_pos hc]
        simp only [applySyncOp]
        rw [happ pf (List.mem_cons_self pf t)]
        exact hc
      · rw [if_neg hc]
        simp only [applySyncOp]
        exact setSide_lookup_self r' pf.1 pf.2
    · have happ' : ∀ qf ∈ t, lookupSide (applySyncOp r' (planEntry remote e0)) qf.1
          = lookupSide remote qf.1 := by
        intro qf hqf
        have hq : qf.1 ≠ e0.1 := by
          intro he
          exact hnd.1 (he ▸ List.mem_map_of_mem Prod.fst hqf)
        have hbase := happ qf (List.mem_cons_of_mem e0 hqf)
        unfold planEntry
        by_cases hc : lookupSide remote e0.1 = some e0.2
        · rw [if_pos hc]
          exact hbase
        · rw [if_neg hc]
          simp only [applySyncOp]
          rw [setSide_lookup_ne qf.1 e0.1 e0.2 hq r']
          exact hbase
      exact ih (applySyncOp r' (planEntry remote e0)) hnd.2 happ' pf hpt

theorem countUploads_eq_zero (ops : List SyncOp)
    (h : ∀ op ∈ ops, ∃ p, op = SyncOp.skip p) : countUploads ops = 0 := by
  induction ops with
  | nil => rfl
  | cons op rest ih =>
    obtain ⟨p, hp⟩ := h op (List.mem_cons_self op rest)
    subst hp
    simp only [countUploads, List.filter_cons]
    exact ih (fun o ho => h o (List.mem_cons_of_mem _ ho))

theorem countSkips_eq_length (ops : List SyncOp)
    (h : ∀ op ∈ ops, ∃ p, op = SyncOp.skip p) : countSkips ops = ops.length := by
  induction ops with
  | nil => rfl
  | cons op rest ih =>
    obtain ⟨p, hp⟩ := h op (List.mem_cons_self op rest)
    subst hp
    simp only [countSkips, List.filter_cons, List.length_cons]
    have := ih (fun o ho => h o (List.mem_cons_of_mem _ ho))
    simp only [countSkips] at this
    simp [this]

/-- C6 (the backend `sync_once` is modelled from the spec): running the
sync twice with no intervening changes makes the second run's plan all
skips — the second `SyncResult` has uploaded = downloaded = deleted = 0
and skipped equal to the total number of entries (all local entries
plus the remote-only ones). -/
theorem syncOnce_idempotent (local' remote : List (String × String))
    (hnd : (local'.map Prod.fst).Nodup) :
    (syncOnce local' (syncOnce local' remote).2).1.uploaded = 0 ∧
    (syncOnce local' (syncOnce local' remote).2).1.downloaded = 0 ∧
    (syncOnce local' (syncOnce local' remote).2).1.deleted = 0 ∧
    (syncOnce local' (syncOnce local' remote).2).1.skipped
      = local'.length
        + ((syncOnce local' remote).2.filter
            (fun e => lookupSide local' e.1 = none)).length := by
  have hrem : (syncOnce local' remote).2
      = applySyncOps (applySyncOps remote (local'.map (planEntry remote)))
          ((remote.filter (fun e => lookupSide local' e.1 = none)).map
            (fun e => SyncOp.skip e.1)) := by
    show applySyncOps remote (planLocalToRemote local' remote) = _
    simp [planLocalToRemote, applySyncOps, List.foldl_append]
  have hrem2 : (syncOnce local' remote).2
      = applySyncOps remote (local'.map (planEntry remote)) := by
    rw [hrem]
    exact applySyncOps_skips _ _ (by
      intro op hop
      obtain ⟨x, _, hxe⟩ := List.mem_map.mp hop
      exact ⟨x.1, hxe.symm⟩)
  have hlookup : ∀ pf ∈ local',
      lookupSide (syncOnce local' remote).2 pf.1 = some pf.2 := by
    intro pf hpf
    rw [hrem2]
    exact applyPlan_lookup remote local' remote hnd (fun _ _ => rfl) pf hpf
  have hall : ∀ op ∈ planLocalToRemote local' (syncOnce local' remote).2,
      ∃ p, op = SyncOp.skip p := by
    intro op hop
    rcases List.mem_append.mp hop with hma | hmb
    · obtain ⟨pf, hpf, hpe⟩ := List.mem_map.mp hma
      refine ⟨pf.1, ?_⟩
      rw [← hpe]
      unfold planEntry
      rw [if_pos (hlookup pf hpf)]
    · obtain ⟨x, _, hxe⟩ := List.mem_map.mp hmb
      exact ⟨x.1, hxe.symm⟩
  refine ⟨countUploads_eq_zero _ hall, rfl, rfl, ?_⟩
  show countSkips (planLocalToRemote local' (syncOnce local' remote).2) = _
  rw [countSkips_eq_length _ hall]
  simp [planLocalToRemote]

theorem syncOnce_idempotent_witness :
    ((([("a", "x"), ("b", "y")] : List (String × String)).map Prod.fst).Nodup) ∧
    ((syncOnce [("a", "x"), ("b", "y")]
        (syncOnce [("a", "x"), ("b", "y")] [("c", "z")]).2).1.uploaded = 0 ∧
     (syncOnce [("a", "x"), ("b", "y")]
        (syncOnce [("a", "x"), ("b", "y")] [("c", "z")]).2).1.downloaded = 0 ∧
     (syncOnce [("a", "x"), ("b", "y")]
        (syncOnce [("a", "x"), ("b", "y")] [("c", "z")]).2).1.deleted = 0 ∧
     (syncOnce [("a", "x"), ("b", "y")]
        (syncOnce [("a", "x"), ("b", "y")] [("c", "z")]).2).1.skipped
       = ([("a", "x"), ("b", "y")] : List (String × String)).length
         + ((syncOnce [("a", "x"), ("b", "y")] [("c", "z")]).2.filter
             (fun e => lookupSide [("a", "x"), ("b", "y")] e.1 = none)).length) :=
  ⟨by decide,
    syncOnce_idempotent [("a", "x"), ("b", "y")] [("c", "z")] (by decide)⟩

end S3Gui
